import Mathlib

/-!
Verification of the Note Store core of the Minimal Note Taking App
(`src/Desktop_Client.py`, class `MarkdownNoteApp`).

Python strings are embedded as lists of characters (`Str`), the process-local
`notes` dict as an insertion-ordered association list, the `pinned_notes` set
as a list used up to membership, and the notes directory as an association
list from file names to file contents.  Durable-write success or failure of
the environment is passed explicitly as a boolean.  Each operation of the
Python class becomes a pure function on this state.
-/

/-- A Python string, as its sequence of code points. -/
abbrev Str := List Char

/-- `isPre p s` is true iff `p` is a prefix of `s` (Python `s.startswith(p)`). -/
def isPre : Str → Str → Bool
  | [], _ => true
  | _ :: _, [] => false
  | a :: as, b :: bs => a = b && isPre as bs

/-- `isSub n h` is true iff `n` occurs contiguously inside `h` (Python `n in h`). -/
def isSub (n : Str) : Str → Bool
  | [] => n.isEmpty
  | c :: rest => isPre n (c :: rest) || isSub n rest

/-- The characters removed from titles by `add_note`
(Python `'\\/:*?"<>|'`). -/
def reservedChars : Str := "\\/:*?\"<>|".data

/-- `add_note`'s title sanitization:
`"".join(c for c in title if c not in '\\/:*?"<>|')`. -/
def sanitize (t : Str) : Str := t.filter (fun c => !(reservedChars.contains c))

/-- The in-band pin marker line `"#pinned\n"`. -/
def marker : Str := "#pinned\n".data

/-- The note file extension `".md"` (`self.default_extension`). -/
def noteExt : Str := ".md".data

/-- Python `filename.endswith(".md")`. -/
def endsWithExt (fn : Str) : Bool := isPre noteExt.reverse fn.reverse

/-- Python `filename[:-len(".md")]`. -/
def mdTitle (fn : Str) : Str := fn.take (fn.length - 3)

/-- Python `os.path.join(self.notes_path, f"{title}.md")`, relative to the
notes directory: the file name of a note. -/
def noteFileName (t : Str) : Str := t ++ noteExt

/-- Lookup in an insertion-ordered association list (Python `d[k]` / `k in d`). -/
def lookup : List (Str × Str) → Str → Option Str
  | [], _ => none
  | (k, v) :: rest, t => if k = t then some v else lookup rest t

/-- Python `d[k] = v`: replace the value of an existing key in place,
or append a fresh key at the end (dict insertion order). -/
def setKey : List (Str × Str) → Str → Str → List (Str × Str)
  | [], k, v => [(k, v)]
  | (k', v') :: rest, k, v =>
    if k' = k then (k, v) :: rest else (k', v') :: setKey rest k v

/-- Python `del d[k]` (for the unique-keyed dicts built by the app). -/
def eraseKey (m : List (Str × Str)) (k : Str) : List (Str × Str) :=
  m.filter (fun p => decide (p.1 ≠ k))

/-- Python `d.keys()`, in insertion order. -/
def keys (m : List (Str × Str)) : List Str := m.map Prod.fst

/-- Python `s.add(t)` on the pinned set (list used up to membership). -/
def pinInsert (s : List Str) (t : Str) : List Str :=
  if t ∈ s then s else t :: s

/-- Python `s.remove(t)` / conditional removal from the pinned set. -/
def pinRemove (s : List Str) (t : Str) : List Str :=
  s.filter (fun x => decide (x ≠ t))

/-- The in-memory state of `MarkdownNoteApp`: the `notes` dict and the
`pinned_notes` set. -/
structure Store where
  notes : List (Str × Str)
  pinned : List Str
deriving DecidableEq

/-- In-memory state plus the durable notes directory (file name ↦ content). -/
structure OpState where
  store : Store
  disk : List (Str × Str)
deriving DecidableEq

/-- `save_note_to_file(title, content)`: on environment success writes the
whole file and returns `True`; on `IOError` returns `False` leaving the
directory unchanged. -/
def save_note_to_file (d : List (Str × Str)) (t c : Str) (env : Bool) :
    Bool × List (Str × Str) :=
  if env then (true, setKey d (noteFileName t) c) else (false, d)

/-- Result of `add_note`: the dialog returned an empty/absent title
(the method returns at `if not title`), the sanitized title already exists,
or the note was inserted (with the durable write succeeding or failing). -/
inductive AddOutcome
  | cancelled
  | duplicate
  | ok
  | writeFailed
deriving DecidableEq

/-- `add_note()` with `raw` the string entered in the dialog: sanitizes the
title, rejects duplicates, inserts empty content into `self.notes`, then
attempts the durable write. -/
def add_note (st : OpState) (raw : Str) (env : Bool) : AddOutcome × OpState :=
  if raw = [] then (.cancelled, st)
  else
    let safe := sanitize raw
    if safe ∈ keys st.store.notes then (.duplicate, st)
    else
      let notes' := setKey st.store.notes safe []
      let w := save_note_to_file st.disk safe [] env
      (if w.1 then .ok else .writeFailed, ⟨⟨notes', st.store.pinned⟩, w.2⟩)

/-- Result of `delete_note`: `os.remove` succeeded, raised
`FileNotFoundError` (no storage unit), or raised another `OSError`. -/
inductive DeleteOutcome
  | ok
  | notFound
  | ioError
deriving DecidableEq

/-- `delete_note()` for a selected `title` (the listbox only offers keys of
`self.notes`): `os.remove` runs first; only if it succeeds are the title
removed from `pinned_notes` and `notes`.  An `OSError` is caught with the
state untouched. -/
def delete_note (st : OpState) (t : Str) (env : Bool) : DeleteOutcome × OpState :=
  if noteFileName t ∈ keys st.disk then
    if env then
      (.ok, ⟨⟨eraseKey st.store.notes t, pinRemove st.store.pinned t⟩,
             eraseKey st.disk (noteFileName t)⟩)
    else (.ioError, st)
  else (.notFound, st)

/-- A character Python's default `str.strip()` removes (ASCII whitespace). -/
def isPySpace (c : Char) : Bool :=
  c = ' ' || c = '\t' || c = '\n' || c = '\r' || c = '\x0b' || c = '\x0c'

/-- Python `s.strip()`: remove trailing, then leading, whitespace. -/
def pyStrip (s : Str) : Str :=
  ((s.reverse.dropWhile isPySpace).reverse).dropWhile isPySpace

/-- `save_note()` for the current note `t` with editor text `raw`:
strips the text, stores it in `self.notes`, attempts the durable write, and
only on write success re-derives the pin status from the marker prefix. -/
def save_note (st : OpState) (t raw : Str) (env : Bool) : Bool × OpState :=
  let content := pyStrip raw
  let notes' := setKey st.store.notes t content
  let w := save_note_to_file st.disk t content env
  if w.1 then
    (true, ⟨⟨notes',
             if isPre marker content then pinInsert st.store.pinned t
             else pinRemove st.store.pinned t⟩, w.2⟩)
  else (false, ⟨⟨notes', st.store.pinned⟩, w.2⟩)

/-- `toggle_pin()` for a selected `title` (from the listbox, so a key of
`self.notes`; the `none` branch is unreachable in the app and modelled as a
no-op): flips membership in `pinned_notes`, strips or prepends exactly one
marker line, and writes the resulting content (ignoring write failure). -/
def toggle_pin (st : OpState) (t : Str) (env : Bool) : OpState :=
  match lookup st.store.notes t with
  | none => st
  | some c =>
    if t ∈ st.store.pinned then
      let c' := if isPre marker c then c.drop 8 else c
      let notes' := if isPre marker c then setKey st.store.notes t (c.drop 8)
                    else st.store.notes
      ⟨⟨notes', pinRemove st.store.pinned t⟩, (save_note_to_file st.disk t c' env).2⟩
    else
      let c' := if isPre marker c then c else marker ++ c
      let notes' := if isPre marker c then st.store.notes
                    else setKey st.store.notes t (marker ++ c)
      ⟨⟨notes', pinInsert st.store.pinned t⟩, (save_note_to_file st.disk t c' env).2⟩

/-- `load_selected_note()` hands `self.notes[title]` to the text area
unchanged. -/
def load_selected_note (s : Store) (t : Str) : Option Str := lookup s.notes t

/-- Accumulated result of `load_notes()`: the rebuilt store and the number of
per-file warnings printed. -/
structure LoadResult where
  store : Store
  warnings : Nat
deriving DecidableEq

/-- One iteration of the `load_notes` loop over a directory entry:
a `.md` file that reads successfully is put into `notes` (and into
`pinned_notes` when its content starts with the marker); a `.md` file whose
read raises `IOError`/`UnicodeDecodeError` only prints a warning; other
files are ignored. -/
def loadStep (acc : LoadResult) (e : Str × Option Str) : LoadResult :=
  if endsWithExt e.1 then
    match e.2 with
    | some content =>
      { store := { notes := setKey acc.store.notes (mdTitle e.1) content,
                   pinned := if isPre marker content then
                               pinInsert acc.store.pinned (mdTitle e.1)
                             else acc.store.pinned },
        warnings := acc.warnings }
    | none => { acc with warnings := acc.warnings + 1 }
  else acc

/-- `load_notes()`: resets `notes` and `pinned_notes`, then folds over the
directory listing (file name, readable content or read failure). -/
def load_notes (dir : List (Str × Option Str)) : LoadResult :=
  dir.foldl loadStep ⟨⟨[], []⟩, 0⟩

/-- Python `x.lower()`, per character. -/
def lowerStr (s : Str) : Str := s.map Char.toLower

/-- `strLe a b` is Python `a <= b` on strings: lexicographic by code point. -/
def strLe : Str → Str → Bool
  | [], _ => true
  | _ :: _, [] => false
  | a :: as, b :: bs =>
    if a.toNat = b.toNat then strLe as bs else decide (a.toNat < b.toNat)

/-- First component of `update_list`'s sort key
`lambda x: (x not in self.pinned_notes, x.lower())`, as `0`/`1`. -/
def pinKey (p : List Str) (x : Str) : Nat := if x ∈ p then 0 else 1

/-- The total preorder induced by `update_list`'s sort key: pinned titles
first, then case-insensitive lexicographic order. -/
def noteLe (p : List Str) (a b : Str) : Bool :=
  decide (pinKey p a < pinKey p b) ||
    (decide (pinKey p a = pinKey p b) && strLe (lowerStr a) (lowerStr b))

/-- Stable insertion of `x` into a sorted list (before the first element it
compares `le` to). -/
def insertLe (le : Str → Str → Bool) (x : Str) : List Str → List Str
  | [] => [x]
  | y :: ys => if le x y then x :: y :: ys else y :: insertLe le x ys

/-- Stable sort by a boolean total preorder; agrees with Python's stable
`sorted` on any total preorder. -/
def insSort (le : Str → Str → Bool) : List Str → List Str
  | [] => []
  | x :: xs => insertLe le x (insSort le xs)

/-- `update_list(filter_text)`: sort all titles by
`(x not in pinned, x.lower())` and keep those with
`filter_text.lower() in title.lower()`, in that order. -/
def update_list (s : Store) (filt : Str) : List Str :=
  (insSort (noteLe s.pinned) (keys s.notes)).filter
    (fun t => isSub (lowerStr filt) (lowerStr t))

/-- The string begins with a stripped-whitespace character. -/
def startsWithSpace : Str → Bool
  | [] => false
  | c :: _ => isPySpace c

/-- The string ends with a stripped-whitespace character. -/
def endsWithSpace (s : Str) : Bool := startsWithSpace s.reverse

/-- The `.md` directory entries that read successfully, as
(title, content) pairs in listing order; `load_notes` builds exactly these. -/
def goodEntries (dir : List (Str × Option Str)) : List (Str × Str) :=
  dir.filterMap
    (fun e => if endsWithExt e.1 then e.2.map (fun c => (mdTitle e.1, c)) else none)

/-- Number of `.md` entries whose read fails. -/
def badCount (dir : List (Str × Option Str)) : Nat :=
  (dir.filter (fun e => endsWithExt e.1 && e.2.isNone)).length

/-- Number of `.md` entries. -/
def mdCount (dir : List (Str × Option Str)) : Nat :=
  (dir.filter (fun e => endsWithExt e.1)).length

/-- A title is in the pinned set iff its stored content starts with the
marker line. -/
def PinConsistent (s : Store) : Prop :=
  ∀ t, t ∈ s.pinned ↔ ∃ c, lookup s.notes t = some c ∧ isPre marker c = true

/-- Executable check entailing `PinConsistent` (used to discharge the
invariant at concrete stores). -/
def pinConsistentB (s : Store) : Bool :=
  s.pinned.all (fun t =>
    match lookup s.notes t with
    | some c => isPre marker c
    | none => false) &&
  s.notes.all (fun e => !(isPre marker e.2) || decide (e.1 ∈ s.pinned))

/-- Every pinned title is a key of the notes mapping. -/
def PinSub (s : Store) : Prop := ∀ t ∈ s.pinned, t ∈ keys s.notes

/-- The empty application state: no notes, nothing pinned, empty directory. -/
def emptyState : OpState := ⟨⟨[], []⟩, []⟩

/-- A state holding one note titled `dup` (file present on disk). -/
def dupState : OpState := ⟨⟨[("dup".data, [])], []⟩, [("dup.md".data, [])]⟩

/-- A state with notes `a` (whose file exists) and `b` (whose file is
missing), `a` pinned. -/
def delState : OpState :=
  ⟨⟨[("a".data, []), ("b".data, [])], ["a".data]⟩, [("a.md".data, [])]⟩

/-- A consistent state: note `a` pinned with content exactly the marker
line. -/
def cexSaveState : OpState := ⟨⟨[("a".data, marker)], ["a".data]⟩, []⟩

/-- A consistent state: note `a` pinned with marker-prefixed content. -/
def w2State : OpState :=
  ⟨⟨[("a".data, marker ++ "x".data)], ["a".data]⟩, [("a.md".data, marker ++ "x".data)]⟩

/-- A consistent state whose pinned note `a` begins with two marker lines. -/
def cexToggleState : OpState := ⟨⟨[("a".data, marker ++ marker)], ["a".data]⟩, []⟩

/-- A state with a single unpinned, markerless note `a`. -/
def w5State : OpState := ⟨⟨[("a".data, "x".data)], []⟩, [("a.md".data, "x".data)]⟩

/-- A one-file directory whose note content carries the pin marker. -/
def cexDisplayDir : List (Str × Option Str) :=
  [("t.md".data, some (marker ++ "hello".data))]

/-- A directory with one pinned note file and one plain note file. -/
def w7Dir : List (Str × Option Str) :=
  [("a.md".data, some (marker ++ "x".data)), ("b.md".data, some "y".data)]

/-- Three `.md` files of which one is unreadable, plus one non-note file. -/
def w8Dir : List (Str × Option Str) :=
  [("a.md".data, some []), ("b.md".data, none), ("c.md".data, some "hi".data),
   ("d.txt".data, some [])]

/-- The `Banana`/`apple`/`Cherry` example store with `Cherry` pinned. -/
def exStore1 : Store :=
  ⟨[("Banana".data, []), ("apple".data, []), ("Cherry".data, [])], ["Cherry".data]⟩

/-- The `Banana`/`apple`/`Cherry` example store with nothing pinned. -/
def exStore2 : Store :=
  ⟨[("Banana".data, []), ("apple".data, []), ("Cherry".data, [])], []⟩

/-! ### Basic lemmas about prefixes -/

theorem isPre_iff : ∀ p s : Str, isPre p s = true ↔ ∃ r, s = p ++ r
  | [], s => by simp [isPre]
  | a :: as, [] => by simp [isPre]
  | a :: as, b :: bs => by
    simp only [isPre, Bool.and_eq_true, decide_eq_true_eq, List.cons_append,
      List.cons.injEq]
    constructor
    · rintro ⟨rfl, h⟩
      obtain ⟨r, rfl⟩ := (isPre_iff as bs).1 h
      exact ⟨r, rfl, rfl⟩
    · rintro ⟨r, rfl, rfl⟩
      exact ⟨rfl, (isPre_iff as (as ++ r)).2 ⟨r, rfl⟩⟩

theorem isPre_append (p r : Str) : isPre p (p ++ r) = true :=
  (isPre_iff p (p ++ r)).2 ⟨r, rfl⟩

theorem isPre_append_cancel (p q r : Str) : isPre (p ++ q) (p ++ r) = isPre q r := by
  induction p with
  | nil => rfl
  | cons a as ih => simp [isPre, ih]

/-! ### Lemmas about the association-list embedding of Python dicts -/

theorem lookup_setKey_self : ∀ (m : List (Str × Str)) (k v : Str),
    lookup (setKey m k v) k = some v
  | [], k, v => by simp [setKey, lookup]
  | (k', v') :: rest, k, v => by
    by_cases h : k' = k
    · simp [setKey, lookup, h]
    · simp [setKey, lookup, h, lookup_setKey_self rest k v]

theorem lookup_setKey_ne : ∀ (m : List (Str × Str)) (k v t : Str), t ≠ k →
    lookup (setKey m k v) t = lookup m t
  | [], k, v, t, h => by
    have h' : k ≠ t := Ne.symm h
    simp [setKey, lookup, h']
  | (k', v') :: rest, k, v, t, h => by
    by_cases hk : k' = k
    · subst hk
      have h' : k' ≠ t := Ne.symm h
      simp [setKey, lookup, h']
    · by_cases ht : k' = t
      · simp [setKey, lookup, hk, ht, h]
      · simp [setKey, lookup, hk, ht, lookup_setKey_ne rest k v t h]

theorem mem_keys_setKey : ∀ (m : List (Str × Str)) (k v a : Str),
    a ∈ keys (setKey m k v) ↔ a = k ∨ a ∈ keys m
  | [], k, v, a => by simp [setKey, keys]
  | (k', v') :: rest, k, v, a => by
    simp only [setKey]
    split
    · next h =>
        subst h
        simp only [keys, List.map_cons, List.mem_cons]
        tauto
    · next h =>
        simp only [keys, List.map_cons, List.mem_cons]
        have ih := mem_keys_setKey rest k v a
        simp only [keys] at ih
        rw [ih]
        tauto

theorem setKey_of_not_mem : ∀ (m : List (Str × Str)) (k v : Str), k ∉ keys m →
    setKey m k v = m ++ [(k, v)]
  | [], k, v, _ => rfl
  | (k', v') :: rest, k, v, h => by
    have h1 : k' ≠ k := by
      intro hk
      exact h (by simp [keys, hk])
    have h2 : k ∉ keys rest := by
      intro hk
      exact h (by simp [keys] at hk ⊢; tauto)
    simp [setKey, h1, setKey_of_not_mem rest k v h2]

theorem lookup_none_of_not_mem : ∀ (m : List (Str × Str)) (t : Str),
    t ∉ keys m → lookup m t = none
  | [], t, _ => rfl
  | (k, v) :: rest, t, h => by
    have h1 : k ≠ t := by
      intro hk
      exact h (by simp [keys, hk])
    have h2 : t ∉ keys rest := by
      intro hk
      exact h (by simp [keys] at hk ⊢; tauto)
    simp [lookup, h1, lookup_none_of_not_mem rest t h2]

theorem mem_keys_of_lookup : ∀ (m : List (Str × Str)) (t c : Str),
    lookup m t = some c → t ∈ keys m
  | [], t, c, h => by simp [lookup] at h
  | (k, v) :: rest, t, c, h => by
    by_cases hk : k = t
    · simp [keys, hk]
    · simp only [lookup, if_neg hk] at h
      have ih := mem_keys_of_lookup rest t c h
      simp only [keys, List.map_cons, List.mem_cons]
      right
      simpa only [keys] using ih

theorem mem_of_lookup : ∀ (m : List (Str × Str)) (t c : Str),
    lookup m t = some c → (t, c) ∈ m
  | [], t, c, h => by simp [lookup] at h
  | (k, v) :: rest, t, c, h => by
    by_cases hk : k = t
    · subst hk
      simp [lookup] at h
      simp [h]
    · simp only [lookup, if_neg hk] at h
      exact List.mem_cons_of_mem _ (mem_of_lookup rest t c h)

theorem lookup_of_mem_nodup : ∀ (m : List (Str × Str)) (t c : Str),
    (keys m).Nodup → (t, c) ∈ m → lookup m t = some c
  | [], t, c, _, h => by simp at h
  | (k, v) :: rest, t, c, hnd, h => by
    simp only [keys, List.map_cons, List.nodup_cons] at hnd
    rcases List.mem_cons.1 h with h1 | h1
    · cases h1
      simp [lookup]
    · have hk : k ≠ t := by
        intro he
        apply hnd.1
        subst he
        exact List.mem_map.2 ⟨(k, c), h1, rfl⟩
      simp only [lookup, if_neg hk]
      exact lookup_of_mem_nodup rest t c hnd.2 h1

theorem lookup_append_right : ∀ (m m' : List (Str × Str)) (t : Str),
    lookup m t = none → lookup (m ++ m') t = lookup m' t
  | [], m', t, _ => rfl
  | (k, v) :: rest, m', t, h => by
    by_cases hk : k = t
    · simp [lookup, hk] at h
    · simp only [lookup, if_neg hk] at h
      simp only [List.cons_append, lookup, if_neg hk]
      exact lookup_append_right rest m' t h

theorem lookup_append_left : ∀ (m m' : List (Str × Str)) (t c : Str),
    lookup m t = some c → lookup (m ++ m') t = some c
  | [], m', t, c, h => by simp [lookup] at h
  | (k, v) :: rest, m', t, c, h => by
    by_cases hk : k = t
    · simp only [lookup, if_pos hk] at h
      simp only [List.cons_append, lookup, if_pos hk]
      exact h
    · simp only [lookup, if_neg hk] at h
      simp only [List.cons_append, lookup, if_neg hk]
      exact lookup_append_left rest m' t c h

theorem lookup_eraseKey_self (m : List (Str × Str)) (k : Str) :
    lookup (eraseKey m k) k = none := by
  apply lookup_none_of_not_mem
  simp [eraseKey, keys, List.mem_map, List.mem_filter]

theorem eraseKey_cons (k' v' k : Str) (rest : List (Str × Str)) :
    eraseKey ((k', v') :: rest) k =
      if k' = k then eraseKey rest k else (k', v') :: eraseKey rest k := by
  by_cases h : k' = k <;> simp [eraseKey, List.filter_cons, h]

theorem lookup_eraseKey_ne : ∀ (m : List (Str × Str)) (k t : Str), t ≠ k →
    lookup (eraseKey m k) t = lookup m t
  | [], k, t, _ => rfl
  | (k', v') :: rest, k, t, h => by
    rw [eraseKey_cons]
    by_cases hk : k' = k
    · rw [if_pos hk]
      have h' : k' ≠ t := by
        rw [hk]
        exact Ne.symm h
      simp only [lookup, if_neg h']
      exact lookup_eraseKey_ne rest k t h
    · rw [if_neg hk]
      by_cases ht : k' = t
      · simp only [lookup, if_pos ht]
      · simp only [lookup, if_neg ht]
        exact lookup_eraseKey_ne rest k t h

theorem mem_keys_eraseKey (m : List (Str × Str)) (k a : Str) :
    a ∈ keys (eraseKey m k) ↔ a ∈ keys m ∧ a ≠ k := by
  simp only [eraseKey, keys, List.mem_map, List.mem_filter, decide_eq_true_eq]
  constructor
  · rintro ⟨p, ⟨hp, hne⟩, rfl⟩
    exact ⟨⟨p, hp, rfl⟩, hne⟩
  · rintro ⟨⟨p, hp, rfl⟩, hne⟩
    exact ⟨p, ⟨hp, hne⟩, rfl⟩

/-! ### Lemmas about the pinned set -/

theorem mem_pinInsert (s : List Str) (t a : Str) :
    a ∈ pinInsert s t ↔ a = t ∨ a ∈ s := by
  by_cases h : t ∈ s
  · simp only [pinInsert, if_pos h]
    constructor
    · tauto
    · rintro (rfl | h2) <;> tauto
  · simp [pinInsert, if_neg h]

theorem mem_pinRemove (s : List Str) (t a : Str) :
    a ∈ pinRemove s t ↔ a ∈ s ∧ a ≠ t := by
  simp [pinRemove, List.mem_filter]

/-! ### The sort underlying `update_list` -/

theorem mem_insertLe (le : Str → Str → Bool) (x : Str) :
    ∀ (l : List Str) (a : Str), a ∈ insertLe le x l ↔ a = x ∨ a ∈ l
  | [], a => by simp [insertLe]
  | y :: ys, a => by
    simp only [insertLe]
    split
    · simp only [List.mem_cons]
    · simp only [List.mem_cons, mem_insertLe le x ys a]
      tauto

theorem mem_insSort (le : Str → Str → Bool) :
    ∀ (l : List Str) (a : Str), a ∈ insSort le l ↔ a ∈ l
  | [], a => Iff.rfl
  | x :: xs, a => by
    simp only [insSort, mem_insertLe, List.mem_cons, mem_insSort le xs a]

theorem pairwise_insertLe (le : Str → Str → Bool)
    (htot : ∀ a b, le a b = false → le b a = true)
    (htrans : ∀ a b c, le a b = true → le b c = true → le a c = true) (x : Str) :
    ∀ l : List Str, l.Pairwise (fun a b => le a b = true) →
      (insertLe le x l).Pairwise (fun a b => le a b = true)
  | [], _ => by simp [insertLe]
  | y :: ys, h => by
    rcases List.pairwise_cons.1 h with ⟨hy, hys⟩
    simp only [insertLe]
    cases hle : le x y with
    | true =>
      refine List.pairwise_cons.2 ⟨?_, h⟩
      intro b hb
      rcases List.mem_cons.1 hb with rfl | hb2
      · exact hle
      · exact htrans x y b hle (hy b hb2)
    | false =>
      refine List.pairwise_cons.2 ⟨?_, pairwise_insertLe le htot htrans x ys hys⟩
      intro b hb
      rcases (mem_insertLe le x ys b).1 hb with hbx | hb2
      · rw [hbx]
        exact htot x y hle
      · exact hy b hb2

theorem pairwise_insSort (le : Str → Str → Bool)
    (htot : ∀ a b, le a b = false → le b a = true)
    (htrans : ∀ a b c, le a b = true → le b c = true → le a c = true) :
    ∀ l : List Str, (insSort le l).Pairwise (fun a b => le a b = true)
  | [] => List.Pairwise.nil
  | x :: xs =>
    pairwise_insertLe le htot htrans x (insSort le xs)
      (pairwise_insSort le htot htrans xs)

/-! ### The comparison key of `update_list` is a total preorder -/

theorem strLe_total : ∀ a b : Str, strLe a b = false → strLe b a = true
  | [], b, h => by simp [strLe] at h
  | a :: as, [], _ => rfl
  | a :: as, b :: bs, h => by
    simp only [strLe] at h ⊢
    by_cases he : a.toNat = b.toNat
    · rw [if_pos he] at h
      rw [if_pos he.symm]
      exact strLe_total as bs h
    · rw [if_neg he] at h
      have he' : ¬ b.toNat = a.toNat := fun h2 => he h2.symm
      rw [if_neg he']
      simp only [decide_eq_false_iff_not, not_lt] at h
      simp only [decide_eq_true_eq]
      omega

theorem strLe_trans : ∀ a b c : Str,
    strLe a b = true → strLe b c = true → strLe a c = true
  | [], _, _, _, _ => rfl
  | a :: as, [], c, h1, _ => by simp [strLe] at h1
  | a :: as, b :: bs, [], _, h2 => by simp [strLe] at h2
  | a :: as, b :: bs, c :: cs, h1, h2 => by
    simp only [strLe] at h1 h2 ⊢
    by_cases e1 : a.toNat = b.toNat <;> by_cases e2 : b.toNat = c.toNat
    · rw [if_pos e1] at h1
      rw [if_pos e2] at h2
      rw [if_pos (e1.trans e2)]
      exact strLe_trans as bs cs h1 h2
    · rw [if_pos e1] at h1
      rw [if_neg e2] at h2
      have e3 : ¬ a.toNat = c.toNat := by omega
      rw [if_neg e3]
      simp only [decide_eq_true_eq] at h2 ⊢
      omega
    · rw [if_neg e1] at h1
      rw [if_pos e2] at h2
      have e3 : ¬ a.toNat = c.toNat := by
        simp only [decide_eq_true_eq] at h1
        omega
      rw [if_neg e3]
      simp only [decide_eq_true_eq] at h1 ⊢
      omega
    · rw [if_neg e1] at h1
      rw [if_neg e2] at h2
      simp only [decide_eq_true_eq] at h1 h2
      have e3 : ¬ a.toNat = c.toNat := by omega
      rw [if_neg e3]
      simp only [decide_eq_true_eq]
      omega

theorem noteLe_total (p : List Str) :
    ∀ a b : Str, noteLe p a b = false → noteLe p b a = true := by
  intro a b h
  simp only [noteLe, Bool.or_eq_false_iff, Bool.and_eq_false_iff,
    decide_eq_false_iff_not, not_lt] at h
  simp only [noteLe, Bool.or_eq_true, Bool.and_eq_true, decide_eq_true_eq]
  rcases h with ⟨h1, h2 | h2⟩
  · left
    omega
  · by_cases he : pinKey p a = pinKey p b
    · right
      exact ⟨he.symm, strLe_total _ _ h2⟩
    · left
      omega

theorem noteLe_trans (p : List Str) : ∀ a b c : Str,
    noteLe p a b = true → noteLe p b c = true → noteLe p a c = true := by
  intro a b c h1 h2
  simp only [noteLe, Bool.or_eq_true, Bool.and_eq_true, decide_eq_true_eq] at h1 h2 ⊢
  rcases h1 with h1 | ⟨h1, h1s⟩ <;> rcases h2 with h2 | ⟨h2, h2s⟩
  · left; omega
  · left; omega
  · left; omega
  · right
    exact ⟨h1.trans h2, strLe_trans _ _ _ h1s h2s⟩

/-! ### Whitespace stripping (`str.strip()`) -/

theorem startsWithSpace_dropWhile (l : Str) :
    startsWithSpace (l.dropWhile isPySpace) = false := by
  induction l with
  | nil => rfl
  | cons c cs ih =>
    rw [List.dropWhile_cons]
    by_cases h : isPySpace c = true
    · rw [if_pos h]
      exact ih
    · rw [if_neg h]
      simpa [startsWithSpace] using h

theorem exists_dropWhile_suffix (p : Char → Bool) :
    ∀ l : Str, ∃ pre : Str, l = pre ++ l.dropWhile p
  | [] => ⟨[], rfl⟩
  | c :: cs => by
    rw [List.dropWhile_cons]
    by_cases h : p c = true
    · obtain ⟨pre, hp⟩ := exists_dropWhile_suffix p cs
      rw [if_pos h]
      exact ⟨c :: pre, by rw [List.cons_append, ← hp]⟩
    · rw [if_neg h]
      exact ⟨[], rfl⟩

theorem startsWithSpace_append (l l' : Str) (h : l ≠ []) :
    startsWithSpace (l ++ l') = startsWithSpace l := by
  cases l with
  | nil => exact absurd rfl h
  | cons c cs => rfl

theorem pyStrip_startsWithSpace (s : Str) :
    startsWithSpace (pyStrip s) = false := by
  unfold pyStrip
  exact startsWithSpace_dropWhile _

theorem pyStrip_endsWithSpace (s : Str) : endsWithSpace (pyStrip s) = false := by
  unfold pyStrip endsWithSpace
  set A := (s.reverse.dropWhile isPySpace).reverse with hA
  have hArev : startsWithSpace A.reverse = false := by
    rw [hA, List.reverse_reverse]
    exact startsWithSpace_dropWhile _
  obtain ⟨pre, hpre⟩ := exists_dropWhile_suffix isPySpace A
  by_cases hres : A.dropWhile isPySpace = []
  · rw [hres]
    rfl
  · have hrev : A.reverse = (A.dropWhile isPySpace).reverse ++ pre.reverse := by
      conv_lhs => rw [hpre]
      exact List.reverse_append pre _
    have hne : (A.dropWhile isPySpace).reverse ≠ [] := by
      simpa [List.reverse_eq_nil_iff] using hres
    rw [← startsWithSpace_append _ pre.reverse hne, ← hrev]
    exact hArev

/-! ### Note file names -/

theorem noteExt_length : noteExt.length = 3 := rfl

theorem mdRecover (fn : Str) (h : endsWithExt fn = true) :
    mdTitle fn ++ noteExt = fn := by
  obtain ⟨r, hr⟩ := (isPre_iff _ _).1 h
  have hfn : fn = r.reverse ++ noteExt := by
    have h2 := congrArg List.reverse hr
    rw [List.reverse_reverse, List.reverse_append] at h2
    simpa [noteExt] using h2
  have hlen : fn.length - 3 = r.reverse.length := by
    rw [hfn, List.length_append, noteExt_length]
    omega
  rw [mdTitle, hlen]
  conv_lhs => rw [hfn]
  rw [List.take_left]
  exact hfn.symm

theorem mdTitle_inj (f1 f2 : Str) (h1 : endsWithExt f1 = true)
    (h2 : endsWithExt f2 = true) (he : mdTitle f1 = mdTitle f2) : f1 = f2 := by
  rw [← mdRecover f1 h1, ← mdRecover f2 h2, he]

/-! ### Loading: the fold over the directory listing -/

theorem load_go_warnings : ∀ (dir : List (Str × Option Str)) (acc : LoadResult),
    (dir.foldl loadStep acc).warnings = acc.warnings + badCount dir
  | [], acc => by simp [badCount]
  | e :: rest, acc => by
    rw [List.foldl_cons, load_go_warnings rest (loadStep acc e)]
    cases he : endsWithExt e.1 with
    | false =>
      simp [loadStep, he, badCount, List.filter_cons]
    | true =>
      cases e2 : e.2 with
      | some c => simp [loadStep, he, e2, badCount, List.filter_cons]
      | none =>
        simp [loadStep, he, e2, badCount, List.filter_cons]
        omega

theorem load_go_notes : ∀ (dir : List (Str × Option Str)) (acc : LoadResult),
    (∀ e ∈ dir, endsWithExt e.1 = true → mdTitle e.1 ∉ keys acc.store.notes) →
    (dir.map Prod.fst).Nodup →
    (dir.foldl loadStep acc).store.notes = acc.store.notes ++ goodEntries dir
  | [], acc, _, _ => by simp [goodEntries]
  | e :: rest, acc, hfresh, hnd => by
    rw [List.foldl_cons]
    have hndr : (rest.map Prod.fst).Nodup := (List.nodup_cons.1 hnd).2
    cases he : endsWithExt e.1 with
    | false =>
      have hstep : loadStep acc e = acc := by simp [loadStep, he]
      rw [hstep, load_go_notes rest acc
        (fun e' he' hmd => hfresh e' (List.mem_cons_of_mem _ he') hmd) hndr]
      simp [goodEntries, List.filterMap_cons, he]
    | true =>
      cases e2 : e.2 with
      | none =>
        have hstep : (loadStep acc e).store = acc.store := by
          simp [loadStep, he, e2]
        have hmain := load_go_notes rest (loadStep acc e)
          (fun e' he' hmd => by
            rw [hstep]
            exact hfresh e' (List.mem_cons_of_mem _ he') hmd) hndr
        rw [hmain, hstep]
        simp [goodEntries, List.filterMap_cons, he, e2]
      | some c =>
        have hfr : mdTitle e.1 ∉ keys acc.store.notes :=
          hfresh e (List.mem_cons_self _ _) he
        have hstep : (loadStep acc e).store.notes =
            acc.store.notes ++ [(mdTitle e.1, c)] := by
          simp only [loadStep, he, if_pos, e2]
          exact setKey_of_not_mem _ _ _ hfr
        have hfresh' : ∀ e' ∈ rest, endsWithExt e'.1 = true →
            mdTitle e'.1 ∉ keys (loadStep acc e).store.notes := by
          intro e' he' hmd hk
          rw [hstep] at hk
          simp only [keys, List.map_append, List.mem_append] at hk
          rcases hk with hk | hk
          · exact hfresh e' (List.mem_cons_of_mem _ he') hmd hk
          · simp only [List.map_cons, List.map_nil, List.mem_singleton] at hk
            have hfe : e'.1 = e.1 := mdTitle_inj e'.1 e.1 hmd he hk
            have : e.1 ∈ rest.map Prod.fst := by
              rw [← hfe]
              exact List.mem_map.2 ⟨e', he', rfl⟩
            exact (List.nodup_cons.1 hnd).1 this
        rw [load_go_notes rest (loadStep acc e) hfresh' hndr, hstep]
        simp [goodEntries, List.filterMap_cons, he, e2, List.append_assoc]

theorem load_go_pinned : ∀ (dir : List (Str × Option Str)) (acc : LoadResult) (t : Str),
    t ∈ (dir.foldl loadStep acc).store.pinned ↔
      t ∈ acc.store.pinned ∨
        ∃ c, (t, c) ∈ goodEntries dir ∧ isPre marker c = true
  | [], acc, t => by simp [goodEntries]
  | e :: rest, acc, t => by
    rw [List.foldl_cons]
    rw [load_go_pinned rest (loadStep acc e) t]
    cases he : endsWithExt e.1 with
    | false =>
      simp [loadStep, he, goodEntries, List.filterMap_cons]
    | true =>
      cases e2 : e.2 with
      | none =>
        have hstep : (loadStep acc e).store = acc.store := by
          simp [loadStep, he, e2]
        rw [hstep]
        simp [goodEntries, List.filterMap_cons, he, e2]
      | some c =>
        have hstep : (loadStep acc e).store.pinned =
            if isPre marker c then pinInsert acc.store.pinned (mdTitle e.1)
            else acc.store.pinned := by
          simp [loadStep, he, e2]
        rw [hstep]
        simp only [goodEntries, List.filterMap_cons, he, if_pos, e2, Option.map_some']
        constructor
        · rintro (hp | ⟨c', hc', hm⟩)
          · by_cases hm : isPre marker c = true
            · rw [if_pos hm] at hp
              rcases (mem_pinInsert _ _ _).1 hp with rfl | hp2
              · exact Or.inr ⟨c, List.mem_cons_self _ _, hm⟩
              · exact Or.inl hp2
            · rw [if_neg hm] at hp
              exact Or.inl hp
          · exact Or.inr ⟨c', List.mem_cons_of_mem _ hc', hm⟩
        · rintro (hp | ⟨c', hc', hm⟩)
          · left
            by_cases hm : isPre marker c = true
            · rw [if_pos hm]
              exact (mem_pinInsert _ _ _).2 (Or.inr hp)
            · rw [if_neg hm]
              exact hp
          · rcases List.mem_cons.1 hc' with hh | hh
            · cases hh
              left
              rw [if_pos hm]
              exact (mem_pinInsert _ _ _).2 (Or.inl rfl)
            · exact Or.inr ⟨c', hh, hm⟩

/-! ### The pin/marker consistency invariant and the pinned-subset invariant -/

theorem pinConsistentB_imp (s : Store) (h : pinConsistentB s = true) :
    PinConsistent s := by
  simp only [pinConsistentB, Bool.and_eq_true, List.all_eq_true] at h
  intro t
  constructor
  · intro ht
    have h1 := h.1 t ht
    cases hc : lookup s.notes t with
    | none =>
      rw [hc] at h1
      simp at h1
    | some c =>
      rw [hc] at h1
      exact ⟨c, rfl, h1⟩
  · rintro ⟨c, hc, hm⟩
    have hmem := mem_of_lookup _ _ _ hc
    have h2 := h.2 (t, c) hmem
    simp only [hm, Bool.not_true, Bool.false_or, decide_eq_true_eq] at h2
    exact h2

theorem marker_not_isPre_nil : isPre marker [] = false := rfl

theorem marker_length : marker.length = 8 := rfl

theorem drop8_marker_append (r : Str) : (marker ++ r).drop 8 = r := by
  rw [← marker_length]
  exact List.drop_left marker r

/-! ### The store produced by `load_notes` -/

theorem mem_keys_goodEntries : ∀ (dir : List (Str × Option Str)) (a : Str),
    a ∈ keys (goodEntries dir) →
      ∃ e ∈ dir, endsWithExt e.1 = true ∧ a = mdTitle e.1
  | [], a, h => by simp [goodEntries, keys] at h
  | e :: rest, a, h => by
    rw [goodEntries, List.filterMap_cons] at h
    cases he : endsWithExt e.1 with
    | false =>
      rw [he] at h
      simp only [Bool.false_eq_true, if_false] at h
      obtain ⟨e', he', hprop⟩ := mem_keys_goodEntries rest a h
      exact ⟨e', List.mem_cons_of_mem _ he', hprop⟩
    | true =>
      rw [he] at h
      simp only [if_true] at h
      cases e2 : e.2 with
      | none =>
        rw [e2] at h
        simp only [Option.map_none'] at h
        obtain ⟨e', he', hprop⟩ := mem_keys_goodEntries rest a h
        exact ⟨e', List.mem_cons_of_mem _ he', hprop⟩
      | some c =>
        rw [e2] at h
        simp only [Option.map_some'] at h
        rw [keys, List.map_cons, List.mem_cons] at h
        rcases h with h | h
        · exact ⟨e, List.mem_cons_self _ _, he, h⟩
        · obtain ⟨e', he', hprop⟩ := mem_keys_goodEntries rest a h
          exact ⟨e', List.mem_cons_of_mem _ he', hprop⟩

theorem keys_goodEntries_nodup : ∀ dir : List (Str × Option Str),
    (dir.map Prod.fst).Nodup → (keys (goodEntries dir)).Nodup
  | [], _ => by simp [goodEntries, keys]
  | e :: rest, hnd => by
    have hh := List.nodup_cons.1 hnd
    rw [goodEntries, List.filterMap_cons]
    cases he : endsWithExt e.1 with
    | false =>
      simp only [Bool.false_eq_true, if_false]
      exact keys_goodEntries_nodup rest hh.2
    | true =>
      simp only [if_true]
      cases e2 : e.2 with
      | none =>
        simp only [Option.map_none']
        exact keys_goodEntries_nodup rest hh.2
      | some c =>
        simp only [Option.map_some']
        rw [keys, List.map_cons]
        refine List.nodup_cons.2 ⟨?_, keys_goodEntries_nodup rest hh.2⟩
        intro hmem
        obtain ⟨e', he', hmd, heq⟩ := mem_keys_goodEntries rest _ hmem
        have : e.1 = e'.1 := mdTitle_inj e.1 e'.1 he hmd heq
        exact hh.1 (this ▸ List.mem_map.2 ⟨e', he', rfl⟩)

theorem load_notes_eq (dir : List (Str × Option Str))
    (hnd : (dir.map Prod.fst).Nodup) :
    (load_notes dir).store.notes = goodEntries dir := by
  have h := load_go_notes dir ⟨⟨[], []⟩, 0⟩ (by intro e _ _ h; simp [keys] at h) hnd
  simpa [load_notes] using h

theorem load_notes_pinned (dir : List (Str × Option Str)) (t : Str) :
    t ∈ (load_notes dir).store.pinned ↔
      ∃ c, (t, c) ∈ goodEntries dir ∧ isPre marker c = true := by
  have h := load_go_pinned dir ⟨⟨[], []⟩, 0⟩ t
  simpa [load_notes] using h

theorem load_pinConsistent (dir : List (Str × Option Str))
    (hnd : (dir.map Prod.fst).Nodup) : PinConsistent (load_notes dir).store := by
  intro t
  rw [load_notes_pinned]
  have hnotes := load_notes_eq dir hnd
  have hndk := keys_goodEntries_nodup dir hnd
  constructor
  · rintro ⟨c, hc, hm⟩
    exact ⟨c, by rw [hnotes]; exact lookup_of_mem_nodup _ _ _ hndk hc, hm⟩
  · rintro ⟨c, hc, hm⟩
    rw [hnotes] at hc
    exact ⟨c, mem_of_lookup _ _ _ hc, hm⟩

/-! ### Branch equations for `toggle_pin` -/

theorem toggle_eq_pinned_marker (st : OpState) (t c : Str) (env : Bool)
    (hc : lookup st.store.notes t = some c) (hp : t ∈ st.store.pinned)
    (hm : isPre marker c = true) :
    (toggle_pin st t env).store =
      ⟨setKey st.store.notes t (c.drop 8), pinRemove st.store.pinned t⟩ := by
  simp [toggle_pin, hc, hp, hm]

theorem toggle_eq_pinned_nomarker (st : OpState) (t c : Str) (env : Bool)
    (hc : lookup st.store.notes t = some c) (hp : t ∈ st.store.pinned)
    (hm : isPre marker c = false) :
    (toggle_pin st t env).store =
      ⟨st.store.notes, pinRemove st.store.pinned t⟩ := by
  simp [toggle_pin, hc, hp, hm]

theorem toggle_eq_unpinned_marker (st : OpState) (t c : Str) (env : Bool)
    (hc : lookup st.store.notes t = some c) (hp : t ∉ st.store.pinned)
    (hm : isPre marker c = true) :
    (toggle_pin st t env).store =
      ⟨st.store.notes, pinInsert st.store.pinned t⟩ := by
  simp [toggle_pin, hc, hp, hm]

theorem toggle_eq_unpinned_nomarker (st : OpState) (t c : Str) (env : Bool)
    (hc : lookup st.store.notes t = some c) (hp : t ∉ st.store.pinned)
    (hm : isPre marker c = false) :
    (toggle_pin st t env).store =
      ⟨setKey st.store.notes t (marker ++ c), pinInsert st.store.pinned t⟩ := by
  simp [toggle_pin, hc, hp, hm]

/-! ### Preservation of the pin/marker consistency invariant -/

theorem add_pinConsistent (st : OpState) (raw : Str) (env : Bool)
    (h : PinConsistent st.store) : PinConsistent (add_note st raw env).2.store := by
  by_cases hr : raw = []
  · simpa [add_note, hr] using h
  · by_cases hdup : sanitize raw ∈ keys st.store.notes
    · simpa [add_note, hr, hdup] using h
    · intro t
      simp only [add_note, if_neg hr, if_neg hdup]
      by_cases ht : t = sanitize raw
      · rw [ht]
        have hnone := lookup_none_of_not_mem _ _ hdup
        have hnp : sanitize raw ∉ st.store.pinned := by
          intro hmem
          obtain ⟨c, hc, _⟩ := (h (sanitize raw)).1 hmem
          rw [hnone] at hc
          exact Option.noConfusion hc
        constructor
        · intro hmem
          exact absurd hmem hnp
        · rintro ⟨c, hc, hm⟩
          rw [lookup_setKey_self] at hc
          cases hc
          exact absurd hm (by simp [marker_not_isPre_nil])
      · rw [lookup_setKey_ne _ _ _ _ ht]
        exact h t

theorem save_note_true_store (st : OpState) (t raw : Str) :
    (save_note st t raw true).2.store =
      ⟨setKey st.store.notes t (pyStrip raw),
       if isPre marker (pyStrip raw) then pinInsert st.store.pinned t
       else pinRemove st.store.pinned t⟩ := by
  simp [save_note, save_note_to_file]

theorem save_note_true_disk (st : OpState) (t raw : Str) :
    (save_note st t raw true).2.disk =
      setKey st.disk (noteFileName t) (pyStrip raw) := by
  simp [save_note, save_note_to_file]

theorem save_true_pinConsistent (st : OpState) (t raw : Str)
    (h : PinConsistent st.store) :
    PinConsistent (save_note st t raw true).2.store := by
  intro t'
  rw [save_note_true_store]
  by_cases ht : t' = t
  · rw [ht]
    by_cases hm : isPre marker (pyStrip raw) = true
    · rw [if_pos hm]
      constructor
      · intro _
        exact ⟨pyStrip raw, lookup_setKey_self _ _ _, hm⟩
      · intro _
        exact (mem_pinInsert _ _ _).2 (Or.inl rfl)
    · rw [if_neg hm]
      constructor
      · intro hmem
        exact absurd ((mem_pinRemove _ _ _).1 hmem).2 (by simp)
      · rintro ⟨c, hc, hmc⟩
        rw [lookup_setKey_self] at hc
        cases hc
        exact absurd hmc hm
  · rw [lookup_setKey_ne _ _ _ _ ht]
    by_cases hm : isPre marker (pyStrip raw) = true
    · rw [if_pos hm]
      rw [mem_pinInsert]
      simp only [ht, false_or]
      exact h t'
    · rw [if_neg hm]
      rw [mem_pinRemove]
      simp only [ht, ne_eq, not_false_eq_true, and_true]
      exact h t'

theorem save_false_state (st : OpState) (t raw : Str) :
    (save_note st t raw false).2.store.notes = setKey st.store.notes t (pyStrip raw) ∧
    (save_note st t raw false).2.store.pinned = st.store.pinned ∧
    (save_note st t raw false).2.disk = st.disk := by
  simp [save_note, save_note_to_file]

theorem delete_pinConsistent (st : OpState) (t : Str) (env : Bool)
    (h : PinConsistent st.store) :
    PinConsistent (delete_note st t env).2.store := by
  by_cases hf : noteFileName t ∈ keys st.disk
  · cases env with
    | false => simpa [delete_note, hf] using h
    | true =>
      intro t'
      simp only [delete_note, if_pos hf, if_pos]
      by_cases ht : t' = t
      · subst ht
        constructor
        · intro hmem
          exact absurd ((mem_pinRemove _ _ _).1 hmem).2 (by simp)
        · rintro ⟨c, hc, _⟩
          rw [lookup_eraseKey_self] at hc
          exact Option.noConfusion hc
      · rw [lookup_eraseKey_ne _ _ _ ht, mem_pinRemove]
        simp only [ht, ne_eq, not_false_eq_true, and_true]
        exact h t'
  · simpa [delete_note, hf] using h

theorem toggle_pinConsistent (st : OpState) (t : Str) (env : Bool) (c : Str)
    (hc : lookup st.store.notes t = some c)
    (hdd : isPre (marker ++ marker) c = false)
    (h : PinConsistent st.store) : PinConsistent (toggle_pin st t env).store := by
  by_cases hp : t ∈ st.store.pinned
  · obtain ⟨c', hc', hm'⟩ := (h t).1 hp
    rw [hc] at hc'
    cases hc'
    obtain ⟨r, hr⟩ := (isPre_iff _ _).1 hm'
    subst hr
    rw [toggle_eq_pinned_marker st t _ env hc hp hm']
    intro t'
    by_cases ht : t' = t
    · subst ht
      constructor
      · intro hmem
        exact absurd ((mem_pinRemove _ _ _).1 hmem).2 (by simp)
      · rintro ⟨c'', hc'', hm''⟩
        simp only at hc''
        rw [lookup_setKey_self, drop8_marker_append] at hc''
        cases hc''
        rw [isPre_append_cancel] at hdd
        rw [hdd] at hm''
        exact Bool.noConfusion hm''
    · simp only
      rw [lookup_setKey_ne _ _ _ _ ht, mem_pinRemove]
      simp only [ht, ne_eq, not_false_eq_true, and_true]
      exact h t'
  · have hm : isPre marker c = false := by
      cases hmv : isPre marker c with
      | false => rfl
      | true => exact absurd ((h t).2 ⟨c, hc, hmv⟩) hp
    rw [toggle_eq_unpinned_nomarker st t c env hc hp hm]
    intro t'
    by_cases ht : t' = t
    · subst ht
      constructor
      · intro _
        exact ⟨marker ++ c, lookup_setKey_self _ _ _, isPre_append marker c⟩
      · intro _
        exact (mem_pinInsert _ _ _).2 (Or.inl rfl)
    · simp only
      rw [lookup_setKey_ne _ _ _ _ ht, mem_pinInsert]
      simp only [ht, false_or]
      exact h t'

/-! ### Preservation of the pinned-subset invariant -/

theorem load_go_pinSub : ∀ (dir : List (Str × Option Str)) (acc : LoadResult),
    PinSub acc.store → PinSub (dir.foldl loadStep acc).store
  | [], acc, h => h
  | e :: rest, acc, h => by
    rw [List.foldl_cons]
    refine load_go_pinSub rest (loadStep acc e) ?_
    cases he : endsWithExt e.1 with
    | false => simpa [loadStep, he] using h
    | true =>
      cases e2 : e.2 with
      | none => simpa [loadStep, he, e2] using h
      | some c =>
        intro t ht
        simp only [loadStep, he, if_pos, e2] at ht ⊢
        rw [mem_keys_setKey]
        by_cases hm : isPre marker c = true
        · rw [if_pos hm] at ht
          rcases (mem_pinInsert _ _ _).1 ht with rfl | ht2
          · exact Or.inl rfl
          · exact Or.inr (h t ht2)
        · rw [if_neg hm] at ht
          exact Or.inr (h t ht)

theorem load_pinSub (dir : List (Str × Option Str)) :
    PinSub (load_notes dir).store := by
  refine load_go_pinSub dir ⟨⟨[], []⟩, 0⟩ ?_
  intro t ht
  simp at ht

theorem add_pinSub (st : OpState) (raw : Str) (env : Bool)
    (h : PinSub st.store) : PinSub (add_note st raw env).2.store := by
  by_cases hr : raw = []
  · simpa [add_note, hr] using h
  · by_cases hdup : sanitize raw ∈ keys st.store.notes
    · simpa [add_note, hr, hdup] using h
    · intro t ht
      simp only [add_note, if_neg hr, if_neg hdup] at ht ⊢
      rw [mem_keys_setKey]
      exact Or.inr (h t ht)

theorem save_pinSub (st : OpState) (t raw : Str) (env : Bool)
    (h : PinSub st.store) : PinSub (save_note st t raw env).2.store := by
  cases env with
  | false =>
    intro t' ht'
    obtain ⟨hn, hp, _⟩ := save_false_state st t raw
    rw [hp] at ht'
    rw [hn, mem_keys_setKey]
    exact Or.inr (h t' ht')
  | true =>
    intro t' ht'
    rw [save_note_true_store] at ht' ⊢
    simp only at ht' ⊢
    rw [mem_keys_setKey]
    by_cases hm : isPre marker (pyStrip raw) = true
    · rw [if_pos hm] at ht'
      rcases (mem_pinInsert _ _ _).1 ht' with rfl | ht2
      · exact Or.inl rfl
      · exact Or.inr (h t' ht2)
    · rw [if_neg hm] at ht'
      exact Or.inr (h t' ((mem_pinRemove _ _ _).1 ht').1)

theorem delete_pinSub (st : OpState) (t : Str) (env : Bool)
    (h : PinSub st.store) : PinSub (delete_note st t env).2.store := by
  by_cases hf : noteFileName t ∈ keys st.disk
  · cases env with
    | false => simpa [delete_note, hf] using h
    | true =>
      intro t' ht'
      simp only [delete_note, if_pos hf, if_pos] at ht' ⊢
      obtain ⟨ht2, hne⟩ := (mem_pinRemove _ _ _).1 ht'
      rw [mem_keys_eraseKey]
      exact ⟨h t' ht2, hne⟩
  · simpa [delete_note, hf] using h

theorem toggle_pinSub (st : OpState) (t : Str) (env : Bool)
    (h : PinSub st.store) : PinSub (toggle_pin st t env).store := by
  cases hc : lookup st.store.notes t with
  | none => simpa [toggle_pin, hc] using h
  | some c =>
    by_cases hp : t ∈ st.store.pinned
    · by_cases hm : isPre marker c = true
      · rw [toggle_eq_pinned_marker st t c env hc hp hm]
        intro t' ht'
        obtain ⟨ht2, _⟩ := (mem_pinRemove _ _ _).1 ht'
        simp only
        rw [mem_keys_setKey]
        exact Or.inr (h t' ht2)
      · rw [toggle_eq_pinned_nomarker st t c env hc hp
          (by simpa using Bool.of_not_eq_true hm)]
        intro t' ht'
        exact h t' ((mem_pinRemove _ _ _).1 ht').1
    · by_cases hm : isPre marker c = true
      · rw [toggle_eq_unpinned_marker st t c env hc hp hm]
        intro t' ht'
        rcases (mem_pinInsert _ _ _).1 ht' with rfl | ht2
        · exact mem_keys_of_lookup _ _ _ hc
        · exact h t' ht2
      · rw [toggle_eq_unpinned_nomarker st t c env hc hp
          (by simpa using Bool.of_not_eq_true hm)]
        intro t' ht'
        simp only
        rw [mem_keys_setKey]
        rcases (mem_pinInsert _ _ _).1 ht' with rfl | ht2
        · exact Or.inl rfl
        · exact Or.inr (h t' ht2)

/-! ### Claim theorems -/

/-- Claim C1 (code bug): the code does not reject a title whose sanitization
is empty.  `add_note("///")` on the empty store inserts a note with the
empty title into `self.notes` and writes the storage unit `".md"`, and
reports success; `add_note("")` returns silently, reporting no
`InvalidTitle` error.  The specified behaviour — fail with `InvalidTitle`
and insert nothing — does not occur on either input. -/
theorem C1_sanitized_empty_title_inserted :
    (add_note emptyState ("///".data) true).1 = AddOutcome.ok ∧
    (add_note emptyState ("///".data) true).2.store.notes =
      [(([] : Str), ([] : Str))] ∧
    (add_note emptyState ("///".data) true).2.disk = [(noteExt, ([] : Str))] ∧
    add_note emptyState ([] : Str) true = (AddOutcome.cancelled, emptyState) := by
  refine ⟨by decide, by decide, by decide, by decide⟩

/-- Claim C3: `delete_note` is transactional.  For a listed title (a key of
the mapping, as the listbox guarantees): whenever the durable delete fails —
in particular when the title has no storage unit, reported as not-found —
the whole state (mapping, pinned set, disk) is unchanged and the mapping
size is unchanged; on durable-delete success the title is removed from both
the mapping and the pinned set. -/
theorem C3_delete_transactional :
    ∀ (st : OpState) (t : Str) (env : Bool), t ∈ keys st.store.notes →
      ((delete_note st t env).1 ≠ DeleteOutcome.ok →
        (delete_note st t env).2 = st ∧
        (delete_note st t env).2.store.notes.length = st.store.notes.length) ∧
      (noteFileName t ∉ keys st.disk →
        delete_note st t env = (DeleteOutcome.notFound, st)) ∧
      ((delete_note st t env).1 = DeleteOutcome.ok →
        t ∉ keys (delete_note st t env).2.store.notes ∧
        t ∉ (delete_note st t env).2.store.pinned ∧
        (delete_note st t env).2.store.notes = eraseKey st.store.notes t ∧
        (delete_note st t env).2.store.pinned = pinRemove st.store.pinned t) := by
  intro st t env _
  by_cases hf : noteFileName t ∈ keys st.disk
  · cases env with
    | false =>
      refine ⟨fun _ => by simp [delete_note, hf], fun hnf => absurd hf hnf,
        fun hok => ?_⟩
      simp [delete_note, hf] at hok
    | true =>
      refine ⟨fun hne => absurd (by simp [delete_note, hf]) hne,
        fun hnf => absurd hf hnf, fun _ => ?_⟩
      refine ⟨?_, ?_, by simp [delete_note, hf], by simp [delete_note, hf]⟩
      · simp only [delete_note, if_pos hf, if_pos]
        rw [mem_keys_eraseKey]
        simp
      · simp only [delete_note, if_pos hf, if_pos]
        rw [mem_pinRemove]
        simp
  · refine ⟨fun _ => by simp [delete_note, hf], fun _ => by simp [delete_note, hf],
      fun hok => ?_⟩
    simp [delete_note, hf] at hok

/-- Witness for C3 at a concrete state: deleting `a` (file present)
removes it from mapping and pinned set; deleting `b` (no storage unit)
reports not-found and leaves the state unchanged. -/
theorem C3_delete_transactional_witness :
    ("a".data ∉ keys (delete_note delState ("a".data) true).2.store.notes ∧
      "a".data ∉ (delete_note delState ("a".data) true).2.store.pinned) ∧
    delete_note delState ("b".data) true = (DeleteOutcome.notFound, delState) := by
  have h1 := C3_delete_transactional delState ("a".data) true (by decide)
  have h2 := C3_delete_transactional delState ("b".data) true (by decide)
  refine ⟨?_, h2.2.1 (by decide)⟩
  have h3 := h1.2.2 (by decide)
  exact ⟨h3.1, h3.2.1⟩

/-- Claim C6: adding a title that sanitizes to an existing key fails with
the duplicate-title error and leaves the mapping, pinned set and durable
storage unchanged.  (The hypothesis that the empty string is not a key of
the mapping is the data model's invariant that titles are nonempty; an
empty-raw input short-circuits before the duplicate check.) -/
theorem C6_duplicate_add_rejected :
    ∀ (st : OpState) (raw : Str) (env : Bool),
      sanitize raw ∈ keys st.store.notes →
      ([] : Str) ∉ keys st.store.notes →
      add_note st raw env = (AddOutcome.duplicate, st) := by
  intro st raw env hdup hnil
  have hr : raw ≠ [] := by
    intro h
    rw [h] at hdup
    exact hnil (by simpa [sanitize] using hdup)
  simp [add_note, hr, hdup]

/-- Witness for C6: adding `dup` to a store that already holds `dup`
returns the duplicate error with the state unchanged. -/
theorem C6_duplicate_add_rejected_witness :
    add_note dupState ("dup".data) true = (AddOutcome.duplicate, dupState) :=
  C6_duplicate_add_rejected dupState ("dup".data) true (by decide) (by decide)

/-- Claim C10: `save_note` never stores the editor text verbatim: the
content recorded in the mapping and written to the storage unit is the
input stripped of leading and trailing whitespace, which therefore never
begins or ends with a whitespace character. -/
theorem C10_save_strips_whitespace :
    ∀ (st : OpState) (t raw : Str) (env : Bool),
      lookup (save_note st t raw env).2.store.notes t = some (pyStrip raw) ∧
      lookup (save_note st t raw true).2.disk (noteFileName t) =
        some (pyStrip raw) ∧
      startsWithSpace (pyStrip raw) = false ∧
      endsWithSpace (pyStrip raw) = false := by
  intro st t raw env
  refine ⟨?_, ?_, pyStrip_startsWithSpace raw, pyStrip_endsWithSpace raw⟩
  · cases env with
    | true =>
      rw [save_note_true_store]
      exact lookup_setKey_self _ _ _
    | false =>
      rw [(save_false_state st t raw).1]
      exact lookup_setKey_self _ _ _
  · rw [save_note_true_disk]
    exact lookup_setKey_self _ _ _

/-- Counterexample to claim C2 as stated: in a consistent state, saving new
markerless content while the durable write fails leaves the title pinned
with content that does not start with the marker line — `save_note` does
not re-derive the pin status when the write fails. -/
theorem C2_counterexample :
    PinConsistent cexSaveState.store ∧
    ¬ PinConsistent (save_note cexSaveState ("a".data) ("y".data) false).2.store := by
  constructor
  · exact pinConsistentB_imp _ (by decide)
  · intro h
    have hmem : "a".data ∈
        (save_note cexSaveState ("a".data) ("y".data) false).2.store.pinned := by
      decide
    obtain ⟨c, hc, hm⟩ := (h ("a".data)).1 hmem
    have hcv : lookup
        (save_note cexSaveState ("a".data) ("y".data) false).2.store.notes
        ("a".data) = some ("y".data) := by decide
    rw [hcv] at hc
    cases hc
    exact absurd hm (by decide)

/-- Claim C2 as amended: the pinned-iff-marker consistency is preserved by
`load_notes` (over a duplicate-free directory listing), `add_note`,
`delete_note`, `save_note` with a successful durable write, and
`toggle_pin` on a title whose content does not begin with a doubled marker
line; when the durable write fails, `save_note` updates the mapping but
leaves the pinned set unchanged (so the consistency can break for the saved
title). -/
theorem C2_pin_marker_consistency :
    (∀ dir : List (Str × Option Str), (dir.map Prod.fst).Nodup →
      PinConsistent (load_notes dir).store) ∧
    (∀ (st : OpState) (raw : Str) (env : Bool), PinConsistent st.store →
      PinConsistent (add_note st raw env).2.store) ∧
    (∀ (st : OpState) (t raw : Str), PinConsistent st.store →
      PinConsistent (save_note st t raw true).2.store) ∧
    (∀ (st : OpState) (t : Str) (env : Bool), PinConsistent st.store →
      PinConsistent (delete_note st t env).2.store) ∧
    (∀ (st : OpState) (t c : Str) (env : Bool),
      lookup st.store.notes t = some c →
      isPre (marker ++ marker) c = false →
      PinConsistent st.store → PinConsistent (toggle_pin st t env).store) ∧
    (∀ (st : OpState) (t raw : Str),
      (save_note st t raw false).2.store.notes =
        setKey st.store.notes t (pyStrip raw) ∧
      (save_note st t raw false).2.store.pinned = st.store.pinned) :=
  ⟨load_pinConsistent, add_pinConsistent, save_true_pinConsistent,
   delete_pinConsistent,
   fun st t c env hc hdd h => toggle_pinConsistent st t env c hc hdd h,
   fun st t raw =>
     ⟨(save_false_state st t raw).1, (save_false_state st t raw).2.1⟩⟩

/-- Witness for C2 at concrete states: each preserved operation applied to a
consistent concrete state yields a consistent store. -/
theorem C2_pin_marker_consistency_witness :
    PinConsistent (load_notes w7Dir).store ∧
    PinConsistent (add_note w2State ("b".data) true).2.store ∧
    PinConsistent (save_note w2State ("a".data) ("z".data) true).2.store ∧
    PinConsistent (delete_note w2State ("a".data) true).2.store ∧
    PinConsistent (toggle_pin w2State ("a".data) true).store := by
  have hpc : PinConsistent w2State.store := pinConsistentB_imp _ (by decide)
  exact ⟨C2_pin_marker_consistency.1 w7Dir (by decide),
         C2_pin_marker_consistency.2.1 w2State ("b".data) true hpc,
         C2_pin_marker_consistency.2.2.1 w2State ("a".data) ("z".data) hpc,
         C2_pin_marker_consistency.2.2.2.1 w2State ("a".data) true hpc,
         C2_pin_marker_consistency.2.2.2.2.1 w2State ("a".data)
           (marker ++ "x".data) true (by decide) (by decide) hpc⟩

/-- Counterexample to claim C5 as stated: for the pinned note `a` whose
content is two marker lines (a state consistent with the pin invariant and
reachable by saving such text), toggling the pin twice strips one marker
line for good: the content ends as a single marker line, not the original
two. -/
theorem C5_counterexample :
    lookup cexToggleState.store.notes ("a".data) = some (marker ++ marker) ∧
    PinConsistent cexToggleState.store ∧
    lookup (toggle_pin (toggle_pin cexToggleState ("a".data) true)
        ("a".data) true).store.notes ("a".data) = some marker ∧
    (some marker ≠ some (marker ++ marker)) := by
  exact ⟨by decide, pinConsistentB_imp _ (by decide), by decide, by decide⟩

/-- Claim C5 as amended: for every title present in the store whose pinned
status agrees with its content's marker prefix and whose content does not
begin with two marker lines, applying `toggle_pin` twice returns both the
pinned status and the content of that title to their original values. -/
theorem C5_toggle_twice_roundtrip :
    ∀ (st : OpState) (t c : Str) (env1 env2 : Bool),
      lookup st.store.notes t = some c →
      (t ∈ st.store.pinned ↔ isPre marker c = true) →
      isPre (marker ++ marker) c = false →
      lookup (toggle_pin (toggle_pin st t env1) t env2).store.notes t = some c ∧
      (t ∈ (toggle_pin (toggle_pin st t env1) t env2).store.pinned ↔
        t ∈ st.store.pinned) := by
  intro st t c env1 env2 hc hcons hdd
  by_cases hp : t ∈ st.store.pinned
  · have hm : isPre marker c = true := hcons.1 hp
    obtain ⟨r, rfl⟩ := (isPre_iff _ _).1 hm
    have h1 := toggle_eq_pinned_marker st t _ env1 hc hp hm
    have hlook1 : lookup (toggle_pin st t env1).store.notes t = some r := by
      rw [h1, drop8_marker_append]
      exact lookup_setKey_self _ _ _
    have hp1 : t ∉ (toggle_pin st t env1).store.pinned := by
      rw [h1]
      intro hmem
      exact ((mem_pinRemove _ _ _).1 hmem).2 rfl
    have hm1 : isPre marker r = false := by
      rw [isPre_append_cancel] at hdd
      exact hdd
    have h2 := toggle_eq_unpinned_nomarker (toggle_pin st t env1) t r env2
      hlook1 hp1 hm1
    constructor
    · rw [h2]
      exact lookup_setKey_self _ _ _
    · rw [h2]
      simp only [hp, iff_true]
      exact (mem_pinInsert _ _ _).2 (Or.inl rfl)
  · have hm : isPre marker c = false := by
      cases hmv : isPre marker c with
      | false => rfl
      | true => exact absurd (hcons.2 hmv) hp
    have h1 := toggle_eq_unpinned_nomarker st t c env1 hc hp hm
    have hlook1 : lookup (toggle_pin st t env1).store.notes t =
        some (marker ++ c) := by
      rw [h1]
      exact lookup_setKey_self _ _ _
    have hp1 : t ∈ (toggle_pin st t env1).store.pinned := by
      rw [h1]
      exact (mem_pinInsert _ _ _).2 (Or.inl rfl)
    have h2 := toggle_eq_pinned_marker (toggle_pin st t env1) t _ env2
      hlook1 hp1 (isPre_append _ _)
    constructor
    · rw [h2, drop8_marker_append]
      exact lookup_setKey_self _ _ _
    · rw [h2]
      simp only [hp, iff_false]
      intro hmem
      exact ((mem_pinRemove _ _ _).1 hmem).2 rfl

/-- Witness for C5 at a concrete state: toggling the unpinned markerless
note `a` twice restores its content and pinned status. -/
theorem C5_toggle_twice_roundtrip_witness :
    lookup (toggle_pin (toggle_pin w5State ("a".data) true)
        ("a".data) true).store.notes ("a".data) = some ("x".data) ∧
    ("a".data ∈ (toggle_pin (toggle_pin w5State ("a".data) true)
        ("a".data) true).store.pinned ↔ "a".data ∈ w5State.store.pinned) :=
  C5_toggle_twice_roundtrip w5State ("a".data) ("x".data) true true
    (by decide) (by decide) (by decide)

/-- Claim C4: `update_list` shows exactly the titles containing the filter
as a case-insensitive substring, ordered pinned-first and then by
case-insensitive lexicographic comparison; on the `Banana`/`apple`/`Cherry`
examples it produces exactly the specified orders. -/
theorem C4_update_list_filter_sorted :
    (∀ (s : Store) (filt t : Str),
      t ∈ update_list s filt ↔
        t ∈ keys s.notes ∧ isSub (lowerStr filt) (lowerStr t) = true) ∧
    (∀ (s : Store) (filt : Str),
      (update_list s filt).Pairwise (fun a b => noteLe s.pinned a b = true)) ∧
    update_list exStore1 [] = ["Cherry".data, "apple".data, "Banana".data] ∧
    update_list exStore2 ("an".data) = ["Banana".data] := by
  refine ⟨?_, ?_, by decide, by decide⟩
  · intro s filt t
    rw [update_list, List.mem_filter, mem_insSort]
  · intro s filt
    exact (pairwise_insSort (noteLe s.pinned) (noteLe_total s.pinned)
      (noteLe_trans s.pinned) (keys s.notes)).sublist (List.filter_sublist _)

/-- Counterexample to claim C7 as stated: the content handed to the text
area for a loaded pinned note retains the marker line; it is not the
marker-stripped display content the claim describes. -/
theorem C7_counterexample :
    load_selected_note (load_notes cexDisplayDir).store ("t".data) =
      some (marker ++ "hello".data) ∧
    load_selected_note (load_notes cexDisplayDir).store ("t".data) ≠
      some ((marker ++ "hello".data).drop marker.length) := by
  exact ⟨by decide, by decide⟩

/-- Claim C7 as amended: after loading a duplicate-free directory, a title
is reported pinned iff its content starts with the marker line, and the
content handed to the presentation layer is the stored content unchanged
(the marker line, when present, is retained). -/
theorem C7_decode_pin_and_display :
    (∀ (dir : List (Str × Option Str)) (t c : Str), (dir.map Prod.fst).Nodup →
      lookup (load_notes dir).store.notes t = some c →
      (t ∈ (load_notes dir).store.pinned ↔ isPre marker c = true)) ∧
    (∀ (s : Store) (t : Str), load_selected_note s t = lookup s.notes t) := by
  constructor
  · intro dir t c hnd hc
    have hpc := load_pinConsistent dir hnd
    constructor
    · intro hmem
      obtain ⟨c', hc', hm⟩ := (hpc t).1 hmem
      rw [hc] at hc'
      cases hc'
      exact hm
    · intro hm
      exact (hpc t).2 ⟨c, hc, hm⟩
  · intro s t
    rfl

/-- Witness for C7 at a concrete directory: the loaded pinned note `a` is
reported pinned iff its content carries the marker, and a lookup is what the
text area receives. -/
theorem C7_decode_pin_and_display_witness :
    ("a".data ∈ (load_notes w7Dir).store.pinned ↔
      isPre marker (marker ++ "x".data) = true) ∧
    load_selected_note ⟨[("a".data, "x".data)], []⟩ ("a".data) =
      lookup [("a".data, "x".data)] ("a".data) :=
  ⟨C7_decode_pin_and_display.1 w7Dir ("a".data) (marker ++ "x".data)
      (by decide) (by decide),
   C7_decode_pin_and_display.2 ⟨[("a".data, "x".data)], []⟩ ("a".data)⟩

theorem goodEntries_length : ∀ dir : List (Str × Option Str),
    (goodEntries dir).length + badCount dir = mdCount dir
  | [] => rfl
  | e :: rest => by
    have ih := goodEntries_length rest
    cases he : endsWithExt e.1 with
    | false =>
      simpa [goodEntries, badCount, mdCount, List.filterMap_cons,
        List.filter_cons, he] using ih
    | true =>
      cases e2 : e.2 with
      | some c =>
        simp only [goodEntries, badCount, mdCount, List.filterMap_cons,
          List.filter_cons, he, e2] at ih ⊢
        simp only [Option.map_some', Option.isNone_some, Bool.and_false,
          Bool.false_eq_true, if_false, if_true, List.length_cons]
        omega
      | none =>
        simp only [goodEntries, badCount, mdCount, List.filterMap_cons,
          List.filter_cons, he, e2] at ih ⊢
        simp only [Option.map_none', Option.isNone_none, Bool.and_true,
          if_true, List.length_cons]
        omega

/-- Claim C8: over a duplicate-free directory listing with `n` note files of
which `k` are unreadable, `load_notes` finishes (it is a total function),
puts exactly `n - k` notes into the mapping, and reports exactly `k`
warnings. -/
theorem C8_load_skips_unreadable :
    ∀ dir : List (Str × Option Str), (dir.map Prod.fst).Nodup →
      (load_notes dir).store.notes.length + badCount dir = mdCount dir ∧
      (load_notes dir).store.notes.length = mdCount dir - badCount dir ∧
      (load_notes dir).warnings = badCount dir := by
  intro dir hnd
  have hn := load_notes_eq dir hnd
  have hw : (load_notes dir).warnings = badCount dir := by
    have h := load_go_warnings dir ⟨⟨[], []⟩, 0⟩
    simpa [load_notes] using h
  have hlen := goodEntries_length dir
  refine ⟨by rw [hn]; exact hlen, by rw [hn]; omega, hw⟩

/-- Witness for C8 at a concrete directory: three note files of which one is
unreadable (plus one non-note file) load into `3 - 1` notes with one
warning. -/
theorem C8_load_skips_unreadable_witness :
    (load_notes w8Dir).store.notes.length + badCount w8Dir = mdCount w8Dir ∧
    (load_notes w8Dir).store.notes.length = mdCount w8Dir - badCount w8Dir ∧
    (load_notes w8Dir).warnings = badCount w8Dir :=
  C8_load_skips_unreadable w8Dir (by decide)

/-- Claim C9: the pinned set is always a subset of the mapping's keys: the
invariant holds after `load_notes` outright and is preserved by `add_note`,
`save_note`, `delete_note` and `toggle_pin` (whether or not the durable
operation succeeds), and a successful delete removes the title from both the
mapping and the pinned set. -/
theorem C9_pinned_subset_invariant :
    (∀ dir : List (Str × Option Str), PinSub (load_notes dir).store) ∧
    (∀ (st : OpState) (raw : Str) (env : Bool),
      PinSub st.store → PinSub (add_note st raw env).2.store) ∧
    (∀ (st : OpState) (t raw : Str) (env : Bool),
      PinSub st.store → PinSub (save_note st t raw env).2.store) ∧
    (∀ (st : OpState) (t : Str) (env : Bool),
      PinSub st.store → PinSub (delete_note st t env).2.store) ∧
    (∀ (st : OpState) (t : Str) (env : Bool),
      PinSub st.store → PinSub (toggle_pin st t env).store) ∧
    (∀ (st : OpState) (t : Str) (env : Bool),
      (delete_note st t env).1 = DeleteOutcome.ok →
        t ∉ keys (delete_note st t env).2.store.notes ∧
        t ∉ (delete_note st t env).2.store.pinned) := by
  refine ⟨load_pinSub, add_pinSub, save_pinSub, delete_pinSub, toggle_pinSub, ?_⟩
  intro st t env hok
  by_cases hf : noteFileName t ∈ keys st.disk
  · cases env with
    | false => simp [delete_note, hf] at hok
    | true =>
      constructor
      · simp only [delete_note, if_pos hf, if_pos]
        rw [mem_keys_eraseKey]
        simp
      · simp only [delete_note, if_pos hf, if_pos]
        rw [mem_pinRemove]
        simp
  · simp [delete_note, hf] at hok

/-- Witness for C9 at concrete states: the subset invariant after a concrete
load and after each mutating operation on a concrete pinned store, and the
removal effect of a successful delete. -/
theorem C9_pinned_subset_invariant_witness :
    PinSub (load_notes w8Dir).store ∧
    PinSub (add_note w2State ("b".data) true).2.store ∧
    PinSub (save_note w2State ("a".data) ("y".data) false).2.store ∧
    PinSub (delete_note w2State ("a".data) true).2.store ∧
    PinSub (toggle_pin w2State ("a".data) true).store ∧
    ("a".data ∉ keys (delete_note w2State ("a".data) true).2.store.notes ∧
      "a".data ∉ (delete_note w2State ("a".data) true).2.store.pinned) := by
  have hps : PinSub w2State.store := by
    unfold PinSub
    decide
  exact ⟨C9_pinned_subset_invariant.1 w8Dir,
         C9_pinned_subset_invariant.2.1 w2State ("b".data) true hps,
         C9_pinned_subset_invariant.2.2.1 w2State ("a".data) ("y".data) false hps,
         C9_pinned_subset_invariant.2.2.2.1 w2State ("a".data) true hps,
         C9_pinned_subset_invariant.2.2.2.2.1 w2State ("a".data) true hps,
         C9_pinned_subset_invariant.2.2.2.2.2 w2State ("a".data) true (by decide)⟩
